/-
Verification of the COMTRADE viewer's waveform analysis engine.

The source (app.py) builds, from a decoded COMTRADE record:
  * two scaled analog series collections (primary / secondary units),
  * a per-status-channel emptiness classifier with display labels,
  * a zero-crossing frequency estimator,
  * a trailing-window RMS transform, and
  * a digital run-length event extractor.

Numeric samples are embedded as rationals (exact arithmetic in place of
IEEE doubles); the final square root of the RMS transform lives in ℝ.
Fallible indexing (Python IndexError) is embedded as Option.
-/
import Mathlib

namespace ComtradeViewer

/-! ## Record data model (uniform in-memory representation, spec §3) -/

/-- An analog channel: identifier, raw samples, and the primary/secondary
scaling factors from the CFG (`rec.cfg.analog_channels[i].primary/.secondary`). -/
structure AnalogChannel where
  id : List Char
  samples : List ℚ
  primary : ℚ
  secondary : ℚ

/-- A status (digital) channel: identifier and raw samples (`rec.status[i]`). -/
structure StatusChannel where
  id : List Char
  samples : List ℤ

/-- The decoded COMTRADE record: start timestamp (seconds, absolute),
relative sample times, and the channel lists. -/
structure Record where
  start_ts : ℚ
  time : List ℚ
  analog : List AnalogChannel
  status : List StatusChannel

/-! ## Scaling engine (app.py lines 37–42) -/

/-- Secondary-unit series: `df_s[cid] = raw_val` — the raw samples unchanged. -/
def secondarySeries (ch : AnalogChannel) : List ℚ :=
  ch.samples

/-- Primary-unit series:
`df_p[cid] = (raw_val * (p / s)) / 1000.0 if s != 0 else raw_val`. -/
def primarySeries (ch : AnalogChannel) : List ℚ :=
  if ch.secondary ≠ 0 then
    ch.samples.map (fun v => v * (ch.primary / ch.secondary) / 1000)
  else
    ch.samples

/-! ## Digital channel classifier (app.py lines 46–51) -/

/-- The `"[EMPTY] "` label prefix used by the classifier. -/
def tag : List Char := ['[', 'E', 'M', 'P', 'T', 'Y', ']', ' ']

/-- `is_empty = not (np.any(data != data[0]) or data[0] == 1)`.
`data[0]` is embedded as `headI` (the code only evaluates this on
non-empty channels; an empty channel raises, handled in `classifyAll`). -/
def isEmptyFlag (data : List ℤ) : Bool :=
  !((data.any fun v => v != data.headI) || data.headI == 1)

/-- `label = f"[EMPTY] {sid}" if is_empty else sid`. -/
def labelChars (e : Bool) (id : List Char) : List Char :=
  if e then tag ++ id else id

/-- Claim C3: for every analog channel, the secondary series is the raw
samples unchanged, and the primary series is `raw * (primary/secondary) / 1000`
when `secondary ≠ 0` and the raw value itself when `secondary = 0`. -/
theorem analog_scaling_correct (ch : AnalogChannel) (i : ℕ)
    (hi : i < ch.samples.length) :
    (secondarySeries ch).get? i = ch.samples.get? i ∧
    (ch.secondary ≠ 0 →
      (primarySeries ch).get? i =
        some (ch.samples.getD i 0 * (ch.primary / ch.secondary) / 1000)) ∧
    (ch.secondary = 0 → (primarySeries ch).get? i = ch.samples.get? i) := by
  refine ⟨rfl, fun hs => ?_, fun hs => ?_⟩
  · simp only [primarySeries, if_pos hs, List.get?_eq_getElem?,
      List.getElem?_map]
    rw [List.getElem?_eq_getElem hi, List.getD_eq_getElem _ _ hi]
    rfl
  · simp [primarySeries, hs]

/-- Witness for C3 at a concrete channel and index. -/
theorem analog_scaling_correct_witness :
    (secondarySeries ⟨['a'], [4, 6], 110, 2⟩).get? 1 = some 6 ∧
    (primarySeries ⟨['a'], [4, 6], 110, 2⟩).get? 1 =
      some ((6 : ℚ) * ((110 : ℚ) / 2) / 1000) := by
  have h := analog_scaling_correct ⟨['a'], [4, 6], 110, 2⟩ 1 (by decide)
  exact ⟨h.1.trans (by decide), (h.2.1 (by norm_num)).trans (by norm_num)⟩

/-- Counterexample to claim C4 as stated: a channel with
`primary = 0`, `secondary = 1` and raw sample `5` has primary value `0`,
and the claimed round trip `primary * 1000 / (primary/secondary)`
does not return `5` (in exact arithmetic the quotient `0 / 0` is `0`;
in the floating-point code it is NaN — either way not the raw value). -/
theorem roundtrip_fails_zero_primary :
    (⟨['a'], [5], 0, 1⟩ : AnalogChannel).secondary ≠ 0 ∧
    (primarySeries ⟨['a'], [5], 0, 1⟩).getD 0 0 * 1000 /
        ((0 : ℚ) / 1) ≠ (5 : ℚ) := by
  constructor
  · norm_num
  · norm_num [primarySeries]

/-- Claim C4 (amended: additionally requires `primary ≠ 0`; with
`primary = 0` the round-trip divides by `primary/secondary = 0` and cannot
recover a nonzero raw sample): for every analog channel with nonzero
secondary AND nonzero primary factor, scaling to primary units and back
recovers the raw sample exactly. -/
theorem roundtrip_scaling_amended (ch : AnalogChannel) (i : ℕ)
    (hs : ch.secondary ≠ 0) (hp : ch.primary ≠ 0)
    (hi : i < ch.samples.length) :
    (primarySeries ch).getD i 0 * 1000 / (ch.primary / ch.secondary) =
      ch.samples.getD i 0 := by
  have hlen : i < (primarySeries ch).length := by
    simpa [primarySeries, if_pos hs] using hi
  rw [List.getD_eq_getElem _ _ hlen, List.getD_eq_getElem _ _ hi]
  simp only [primarySeries, if_pos hs, List.getElem_map]
  have hps : ch.primary / ch.secondary ≠ 0 := div_ne_zero hp hs
  field_simp
  ring

/-- Witness for the amended C4 at a concrete channel. -/
theorem roundtrip_scaling_amended_witness :
    (primarySeries ⟨['a'], [4, 6], 110, 2⟩).getD 1 0 * 1000 /
        ((110 : ℚ) / 2) = (6 : ℚ) :=
  roundtrip_scaling_amended ⟨['a'], [4, 6], 110, 2⟩ 1
    (by norm_num) (by norm_num) (by decide)

/-- Claim C5: for every non-empty {0,1}-valued status channel, the
emptiness flag is the negation of "some sample differs from the first, or
the first equals 1"; equivalently the channel is empty iff all samples are
0; the label prepends `"[EMPTY] "` exactly when empty; and the three spec
examples evaluate as stated. -/
theorem digital_classifier_correct :
    (∀ (data : List ℤ) (id : List Char), data ≠ [] →
      (∀ v ∈ data, v = 0 ∨ v = 1) →
      ((isEmptyFlag data = true ↔
          ¬ ((∃ v ∈ data, v ≠ data.headI) ∨ data.headI = 1)) ∧
       (isEmptyFlag data = true ↔ ∀ v ∈ data, v = 0) ∧
       (isEmptyFlag data = true → labelChars (isEmptyFlag data) id = tag ++ id) ∧
       (isEmptyFlag data = false → labelChars (isEmptyFlag data) id = id))) ∧
    isEmptyFlag [0, 0, 0, 0] = true ∧
    isEmptyFlag [1, 1, 1, 1] = false ∧
    isEmptyFlag [0, 0, 1, 0] = false := by
  refine ⟨?_, by decide, by decide, by decide⟩
  intro data id hne h01
  obtain ⟨h, t, rfl⟩ : ∃ x xs, data = x :: xs := by
    cases data with
    | nil => exact absurd rfl hne
    | cons x xs => exact ⟨x, xs, rfl⟩
  constructor
  · simp only [isEmptyFlag, Bool.not_eq_true', Bool.or_eq_false_iff,
      List.any_eq_false, bne_iff_ne, ne_eq, beq_eq_false_iff_ne]
    constructor
    · rintro ⟨hall, hone⟩
      rintro (⟨v, hv, hvne⟩ | h1)
      · exact hvne (by simpa using hall v hv)
      · exact hone h1
    · intro hn
      push_neg at hn
      exact ⟨fun v hv => by simp [hn.1 v hv], hn.2⟩
  constructor
  · simp only [isEmptyFlag, Bool.not_eq_true', Bool.or_eq_false_iff,
      List.any_eq_false, bne_iff_ne, ne_eq, beq_eq_false_iff_ne,
      List.headI_cons]
    constructor
    · rintro ⟨hall, hone⟩ v hv
      have hvh : v = h := not_not.mp (hall v hv)
      have : h = 0 ∨ h = 1 := h01 h (by simp)
      rcases this with h0 | h1
      · omega
      · exact absurd h1 hone
    · intro hz
      refine ⟨fun v hv => ?_, ?_⟩
      · have : v = 0 := hz v hv
        have : h = 0 := hz h (by simp)
        omega
      · have : h = 0 := hz h (by simp)
        omega
  · exact ⟨fun he => by simp [labelChars, he], fun he => by simp [labelChars, he]⟩

/-- Witness for C5 at the concrete channel `[0,0,1,0]`. -/
theorem digital_classifier_correct_witness :
    isEmptyFlag [(0 : ℤ), 0, 1, 0] = true ↔ ∀ v ∈ [(0 : ℤ), 0, 1, 0], v = 0 :=
  (digital_classifier_correct.1 [0, 0, 1, 0] ['a'] (by decide) (by decide)).2.1

/-! ## RMS transform (app.py lines 123–125) -/

/-- `win = int(0.02 / sample_period)`, used as `rolling(window=max(1, win))`:
Python `int` truncates, which for a positive argument is the floor. -/
def winLen (p : ℚ) : ℕ :=
  max 1 (⌊(2 / 100 : ℚ) / p⌋.toNat)

/-- Modelled from the spec's words (for comparison with `winLen`): window =
`round(0.02 / period)` samples, minimum 1, where a fractional part of at
least one half rounds up. -/
def specWinLen (p : ℚ) : ℕ :=
  max 1 (⌊(2 / 100 : ℚ) / p + 1 / 2⌋.toNat)

/-- `y_plot.pow(2).rolling(window=w).mean()`: with pandas' default
`min_periods = w`, output `i` is NaN (here `none`) while fewer than `w`
samples are available, i.e. for `i + 1 < w`; otherwise it is the mean of
the squares of the trailing window of length `w` ending at `i`. -/
def rollingMeanSq (w : ℕ) (xs : List ℚ) : List (Option ℚ) :=
  (List.range xs.length).map fun i =>
    if i + 1 < w then none
    else some ((((xs.drop (i + 1 - w)).take w).map fun v => v * v).sum / (w : ℚ))

/-- `.apply(np.sqrt)` applied to the rolling mean of squares; NaN maps to
NaN (`none` to `none`). The full RMS series for sample period `p`. -/
noncomputable def rmsSeries (p : ℚ) (xs : List ℚ) : List (Option ℝ) :=
  (rollingMeanSq (winLen p) xs).map (Option.map fun q : ℚ => Real.sqrt (q : ℝ))

/-- Window length at the concrete period 1/100 s (one 50 Hz cycle at
100 Hz sampling is exactly 2 samples). -/
lemma winLen_at_hundredth : winLen (1 / 100) = 2 := by
  have hf : ⌊(2 / 100 : ℚ) / (1 / 100)⌋ = 2 := by
    rw [Int.floor_eq_iff]
    constructor <;> norm_num
  unfold winLen
  rw [hf]
  decide

/-- Counterexample to claim C1 as stated: for the constant series `[3, 3]`
at sample period 1/100 s the window is 2 and output index 0 is undefined
(NaN in the code, `none` here), not `|3|` — pandas' default `min_periods`
equals the window, so the first `window − 1` outputs are NOT computed over
a partial window. -/
theorem rms_first_outputs_undefined :
    winLen (1 / 100) = 2 ∧
    (rmsSeries (1 / 100) [3, 3]).get? 0 = some none := by
  refine ⟨winLen_at_hundredth, ?_⟩
  have h : rollingMeanSq (winLen (1 / 100)) [3, 3] = [none, some 9] := by
    rw [winLen_at_hundredth]
    simp [rollingMeanSq, List.range_succ]
    norm_num
  simp only [rmsSeries]
  rw [h]
  rfl

/-- Claim C1 (amended: the first `window − 1` outputs are undefined
(NaN), not partial-window values; from index `window − 1` on, each output
is the root of the mean of the squares of the trailing window, and for a
constant series `c` every defined output equals `|c|`): the RMS transform
preserves length, is `none` below index `window − 1`, and from there on
equals `sqrt(mean(window of squared values))`. -/
theorem rms_trailing_window_amended (p : ℚ) (xs : List ℚ) :
    (rmsSeries p xs).length = xs.length ∧
    (∀ i, i < xs.length → i + 1 < winLen p →
      (rmsSeries p xs).get? i = some none) ∧
    (∀ i, i < xs.length → winLen p ≤ i + 1 →
      (rmsSeries p xs).get? i =
        some (some (Real.sqrt
          (((((xs.drop (i + 1 - winLen p)).take (winLen p)).map
              fun v => v * v).sum / (winLen p : ℚ) : ℚ) : ℝ)))) ∧
    (∀ c : ℚ, xs = List.replicate xs.length c →
      ∀ i, i < xs.length → winLen p ≤ i + 1 →
        (rmsSeries p xs).get? i = some (some |(c : ℝ)|)) := by
  have hget : ∀ i, i < xs.length →
      (rmsSeries p xs).get? i =
        some (Option.map (fun q => Real.sqrt ((q : ℚ) : ℝ))
          (if i + 1 < winLen p then none
           else some ((((xs.drop (i + 1 - winLen p)).take (winLen p)).map
              fun v => v * v).sum / (winLen p : ℚ)))) := by
    intro i hi
    simp only [rmsSeries, rollingMeanSq, List.get?_eq_getElem?,
      List.getElem?_map, List.getElem?_range hi]
    rfl
  refine ⟨?_, ?_, ?_, ?_⟩
  · simp [rmsSeries, rollingMeanSq]
  · intro i hi hlt
    rw [hget i hi, if_pos hlt]
    rfl
  · intro i hi hge
    rw [hget i hi, if_neg (by omega)]
    rfl
  · intro c hc i hi hge
    rw [hget i hi, if_neg (by omega)]
    have hwin : ((xs.drop (i + 1 - winLen p)).take (winLen p)) =
        List.replicate (winLen p) c := by
      rw [hc, List.drop_replicate, List.take_replicate]
      congr 1
      omega
    have hw1 : 1 ≤ winLen p := le_max_left _ _
    have hsum : (((xs.drop (i + 1 - winLen p)).take (winLen p)).map
        fun v => v * v).sum = (winLen p : ℚ) * (c * c) := by
      rw [hwin, List.map_replicate, List.sum_replicate, nsmul_eq_mul]
    have hmean : (((xs.drop (i + 1 - winLen p)).take (winLen p)).map
        fun v => v * v).sum / (winLen p : ℚ) = c * c := by
      rw [hsum]
      exact mul_div_cancel_left₀ _ (by positivity)
    rw [hmean]
    have hcast : Real.sqrt ((c : ℝ) * (c : ℝ)) = |(c : ℝ)| := by
      rw [← pow_two, Real.sqrt_sq_eq_abs]
    simp [hcast]

/-- Witness for the amended C1: at period 1/100 the window is 2 and output
index 1 of the constant series `[3, 3]` is `|3| = 3`. -/
theorem rms_trailing_window_amended_witness :
    (rmsSeries (1 / 100) (List.replicate 2 (3 : ℚ))).get? 1 =
      some (some |((3 : ℚ) : ℝ)|) :=
  ((rms_trailing_window_amended (1 / 100) (List.replicate 2 3)).2.2.2
    3 (by decide) 1 (by decide) (by rw [winLen_at_hundredth]))

/-- Counterexample to claim C2 as stated: at period 1/130 s the quotient
`0.02 / p = 2.6` has fractional part above one half, so the claimed window
is the rounded value 3, but the code truncates and uses 2. -/
theorem winLen_truncates_not_rounds :
    winLen (1 / 130) = 2 ∧ specWinLen (1 / 130) = 3 ∧
    winLen (1 / 130) ≠ specWinLen (1 / 130) := by
  have hf1 : ⌊(2 / 100 : ℚ) / (1 / 130)⌋ = 2 := by
    rw [Int.floor_eq_iff]
    constructor <;> norm_num
  have hf2 : ⌊(2 / 100 : ℚ) / (1 / 130) + 1 / 2⌋ = 3 := by
    rw [Int.floor_eq_iff]
    constructor <;> norm_num
  have h1 : winLen (1 / 130) = 2 := by
    unfold winLen
    rw [hf1]
    decide
  have h2 : specWinLen (1 / 130) = 3 := by
    unfold specWinLen
    rw [hf2]
    decide
  exact ⟨h1, h2, by omega⟩

/-- Claim C2 (amended: the window is the TRUNCATION `int(0.02 / p)` of one
50 Hz cycle, clamped to a minimum of 1, not the rounded value): for every
positive sample period the window length is at least 1; when the truncated
cycle count is at least 1 the window `w` satisfies `w ≤ 0.02/p < w + 1`
(floor characterization), and when it is below 1 the window is clamped
to 1. -/
theorem winLen_floor_spec (p : ℚ) (hp : 0 < p) :
    1 ≤ winLen p ∧
    (1 ≤ ⌊(2 / 100 : ℚ) / p⌋ →
      ((winLen p : ℚ) ≤ (2 / 100 : ℚ) / p ∧
       (2 / 100 : ℚ) / p < (winLen p : ℚ) + 1)) ∧
    (⌊(2 / 100 : ℚ) / p⌋ < 1 → winLen p = 1) := by
  refine ⟨le_max_left _ _, fun h1 => ?_, fun h1 => ?_⟩
  · have hmax : winLen p = ⌊(2 / 100 : ℚ) / p⌋.toNat := by
      unfold winLen
      omega
    have htn : ((⌊(2 / 100 : ℚ) / p⌋.toNat : ℤ) : ℚ) = (⌊(2 / 100 : ℚ) / p⌋ : ℚ) := by
      congr 1
      omega
    constructor
    · rw [hmax]
      calc ((⌊(2 / 100 : ℚ) / p⌋.toNat : ℕ) : ℚ)
          = ((⌊(2 / 100 : ℚ) / p⌋ : ℤ) : ℚ) := by exact_mod_cast htn
        _ ≤ (2 / 100 : ℚ) / p := Int.floor_le _
    · rw [hmax]
      have h2 := Int.lt_floor_add_one ((2 / 100 : ℚ) / p)
      calc (2 / 100 : ℚ) / p < (⌊(2 / 100 : ℚ) / p⌋ : ℚ) + 1 := h2
        _ = ((⌊(2 / 100 : ℚ) / p⌋.toNat : ℕ) : ℚ) + 1 := by
            have h3 : ((⌊(2 / 100 : ℚ) / p⌋.toNat : ℕ) : ℚ) =
                ((⌊(2 / 100 : ℚ) / p⌋ : ℤ) : ℚ) := by exact_mod_cast htn
            rw [h3]
  · unfold winLen
    omega

/-- Witness for the amended C2 at period 1/100: window 2 with
`2 ≤ 2 < 3`. -/
theorem winLen_floor_spec_witness :
    (winLen (1 / 100) : ℚ) ≤ (2 / 100 : ℚ) / (1 / 100) ∧
    (2 / 100 : ℚ) / (1 / 100) < (winLen (1 / 100) : ℚ) + 1 :=
  (winLen_floor_spec (1 / 100) (by norm_num)).2.1
    (by
      have hf : ⌊(2 / 100 : ℚ) / (1 / 100)⌋ = 2 := by
        rw [Int.floor_eq_iff]
        constructor <;> norm_num
      omega)

/-! ## Frequency estimator (app.py lines 101–106) -/

/-- `np.sign` restricted to exact rationals: 1, −1 or 0. -/
def qsign (x : ℚ) : ℤ :=
  if 0 < x then 1 else if x < 0 then -1 else 0

/-- `cross = np.where(np.diff(np.sign(y)) > 0)[0]`: the indices `idx` with
`sign(y[idx+1]) − sign(y[idx]) > 0`, in increasing order. -/
def crossings (y : List ℚ) : List ℕ :=
  (List.range (y.length - 1)).filter fun idx =>
    decide (0 < qsign (y.getD (idx + 1) 0) - qsign (y.getD idx 0))

/-- `idx*sample_period - y[idx]*sample_period/(y[idx+1]-y[idx])`:
linearly interpolated crossing time for one crossing index. -/
def crossTime (T : ℚ) (y : List ℚ) (idx : ℕ) : ℚ :=
  idx * T - y.getD idx 0 * T / (y.getD (idx + 1) 0 - y.getD idx 0)

/-- `ts = [idx*sample_period - ... for idx in cross]`. -/
def crossTimes (T : ℚ) (y : List ℚ) : List ℚ :=
  (crossings y).map (crossTime T y)

/-- The frequency tab's output: guarded by `if len(cross) > 1`, pairs
`f_t = start + ts[1:]` with `f_val = 1.0 / np.diff(ts)`. Each output point
is `(start + ts[k+1], 1 / (ts[k+1] - ts[k]))`. -/
def freqPoints (T startT : ℚ) (y : List ℚ) : List (ℚ × ℚ) :=
  let ts := crossTimes T y
  if 1 < ts.length then
    (ts.tail.zip ts).map fun t2t1 => (startT + t2t1.1, 1 / (t2t1.1 - t2t1.2))
  else []

/-- `get?` of a tail shifts the index by one. -/
lemma tail_get? {α : Type} (l : List α) (n : ℕ) :
    l.tail.get? n = l.get? (n + 1) := by
  cases l <;> simp

/-- Claim C6: the estimator selects exactly the indices where the
sign-difference test fires; with fewer than 2 crossings the result is
empty; otherwise it yields one fewer frequency point than crossings, point
`k` being `1 / (t_cross[k+1] − t_cross[k])` timestamped
`start + t_cross[k+1]`. -/
theorem frequency_estimator_correct (T startT : ℚ) (y : List ℚ) :
    (∀ idx, idx ∈ crossings y ↔
      (idx + 1 < y.length ∧
        0 < qsign (y.getD (idx + 1) 0) - qsign (y.getD idx 0))) ∧
    ((crossings y).length < 2 → freqPoints T startT y = []) ∧
    (2 ≤ (crossings y).length →
      ((freqPoints T startT y).length = (crossings y).length - 1 ∧
       ∀ k, k + 1 < (crossTimes T y).length →
         (freqPoints T startT y).get? k =
           some (startT + (crossTimes T y).getD (k + 1) 0,
                 1 / ((crossTimes T y).getD (k + 1) 0 -
                      (crossTimes T y).getD k 0)))) := by
  have hlen : (crossTimes T y).length = (crossings y).length := by
    simp [crossTimes]
  refine ⟨?_, ?_, ?_⟩
  · intro idx
    simp only [crossings, List.mem_filter, List.mem_range, decide_eq_true_eq]
    omega
  · intro h2
    simp only [freqPoints]
    rw [if_neg (by omega)]
  · intro h2
    constructor
    · simp only [freqPoints]
      rw [if_pos (by omega)]
      simp only [List.length_map, List.length_zip, List.length_tail]
      omega
    · intro k hk
      simp only [freqPoints]
      rw [if_pos (by omega)]
      have hk1 : k < (crossTimes T y).length := by omega
      have ht2 : (crossTimes T y).tail.get? k =
          some ((crossTimes T y).getD (k + 1) 0) := by
        rw [tail_get?, List.get?_eq_getElem?, List.getElem?_eq_getElem hk,
          List.getD_eq_getElem _ _ hk]
      have ht1 : (crossTimes T y).get? k =
          some ((crossTimes T y).getD k 0) := by
        rw [List.get?_eq_getElem?, List.getElem?_eq_getElem hk1,
          List.getD_eq_getElem _ _ hk1]
      have hzip : ((crossTimes T y).tail.zip (crossTimes T y)).get? k =
          some ((crossTimes T y).getD (k + 1) 0,
                (crossTimes T y).getD k 0) := by
        simp only [List.get?_eq_getElem?] at ht2 ht1 ⊢
        rw [List.getElem?_zip_eq_some]
        exact ⟨ht2, ht1⟩
      simp only [List.get?_eq_getElem?, List.getElem?_map]
      simp only [List.get?_eq_getElem?] at hzip
      rw [hzip]
      rfl

/-- Witness for C6 on the concrete series `[-1, 1, -1, 1]` with unit
period: two crossings, hence exactly one frequency point. -/
theorem frequency_estimator_correct_witness :
    (freqPoints 1 0 [-1, 1, -1, 1]).length =
      (crossings [-1, 1, -1, 1]).length - 1 :=
  ((frequency_estimator_correct 1 0 [-1, 1, -1, 1]).2.2 (by decide)).1

/-- Claim C7: at every index selected by the crossing test, the two
samples have different signs, hence differ; the interpolation denominator
`y[idx+1] − y[idx]` is nonzero and the division is well-defined. -/
theorem crossing_denominator_nonzero (y : List ℚ) (idx : ℕ)
    (h : idx ∈ crossings y) :
    y.getD (idx + 1) 0 - y.getD idx 0 ≠ 0 := by
  have hmem : 0 < qsign (y.getD (idx + 1) 0) - qsign (y.getD idx 0) := by
    simp only [crossings, List.mem_filter, decide_eq_true_eq] at h
    exact h.2
  intro heq
  have : y.getD (idx + 1) 0 = y.getD idx 0 := by linarith [sub_eq_zero.mp heq]
  rw [this] at hmem
  omega

/-- Witness for C7 on the concrete series `[-1, 1]` at its single
crossing. -/
theorem crossing_denominator_nonzero_witness :
    ([(-1 : ℚ), 1].getD 1 0 - [(-1 : ℚ), 1].getD 0 0) ≠ 0 :=
  crossing_denominator_nonzero [-1, 1] 0 (by decide)

/-! ## Label stripping in the digitals tab (app.py line 140) -/

/-- `l.replace("[EMPTY] ", "")`: delete every (leftmost-first,
non-overlapping) occurrence of the 8-character tag. -/
def stripEmptyTag : List Char → List Char
  | [] => []
  | c :: cs =>
    if (c :: cs).take 8 = tag then stripEmptyTag ((c :: cs).drop 8)
    else c :: stripEmptyTag cs
termination_by l => l.length
decreasing_by
  · simp only [List.length_drop, List.length_cons]
    omega
  · simp only [List.length_cons]
    omega

/-- Whether the tag occurs as a contiguous substring. -/
def containsTag : List Char → Bool
  | [] => false
  | c :: cs => decide ((c :: cs).take 8 = tag) || containsTag cs

/-- Stripping a tag-free string is the identity. -/
lemma stripEmptyTag_of_not_contains (l : List Char)
    (h : containsTag l = false) : stripEmptyTag l = l := by
  induction l with
  | nil => simp [stripEmptyTag]
  | cons c cs ih =>
      simp only [containsTag, Bool.or_eq_false_iff, decide_eq_false_iff_not] at h
      rw [stripEmptyTag, if_neg h.1, ih h.2]

/-- Stripping never lengthens a string. -/
lemma stripEmptyTag_length_le (l : List Char) :
    (stripEmptyTag l).length ≤ l.length := by
  induction l using stripEmptyTag.induct with
  | case1 => simp [stripEmptyTag]
  | case2 c cs htake ih =>
      rw [stripEmptyTag, if_pos htake]
      calc (stripEmptyTag ((c :: cs).drop 8)).length
          ≤ ((c :: cs).drop 8).length := ih
        _ ≤ (c :: cs).length := by
            simp only [List.length_drop, List.length_cons]
            omega
  | case3 c cs htake ih =>
      rw [stripEmptyTag, if_neg htake]
      simpa using Nat.succ_le_succ ih

/-- Stripping a string that does contain the tag removes at least 8
characters. -/
lemma stripEmptyTag_length_lt (l : List Char)
    (h : containsTag l = true) :
    (stripEmptyTag l).length + 8 ≤ l.length := by
  induction l using stripEmptyTag.induct with
  | case1 => simp [containsTag] at h
  | case2 c cs htake ih =>
      rw [stripEmptyTag, if_pos htake]
      have hlen8 : 8 ≤ (c :: cs).length := by
        have h1 := congrArg List.length htake
        rw [List.length_take] at h1
        have htag : tag.length = 8 := by decide
        rw [htag] at h1
        omega
      have hdrop := stripEmptyTag_length_le ((c :: cs).drop 8)
      simp only [List.length_drop] at hdrop ⊢
      omega
  | case3 c cs htake ih =>
      rw [stripEmptyTag, if_neg htake]
      simp only [containsTag, Bool.or_eq_true, decide_eq_true_eq] at h
      rcases h with h | h
      · exact absurd h htake
      · simpa using Nat.succ_le_succ (ih h)

/-- Stripping the label starts by removing the synthesized prefix. -/
lemma stripEmptyTag_tag_append (id : List Char) :
    stripEmptyTag (tag ++ id) = stripEmptyTag id := by
  have htake : (tag ++ id).take 8 = tag := by
    have : tag.length = 8 := by decide
    rw [← this, List.take_left]
  have hdrop : (tag ++ id).drop 8 = id := by
    have : tag.length = 8 := by decide
    rw [← this, List.drop_left]
  rw [show tag ++ id = '[' :: (['E', 'M', 'P', 'T', 'Y', ']', ' '] ++ id) from rfl]
  rw [stripEmptyTag]
  rw [show ('[' :: (['E', 'M', 'P', 'T', 'Y', ']', ' '] ++ id)) = tag ++ id from rfl,
    if_pos htake, hdrop]

/-- Claim C10: for every channel id and either classifier verdict, the
digitals tab recovers the id from the display label by deleting every
occurrence of `"[EMPTY] "`; this is exact when the id itself is free of
that substring, and alters the id otherwise. -/
theorem label_strip_roundtrip (id : List Char) (e : Bool) :
    (containsTag id = false → stripEmptyTag (labelChars e id) = id) ∧
    (containsTag id = true → stripEmptyTag (labelChars e id) ≠ id) := by
  have hlabel : stripEmptyTag (labelChars e id) = stripEmptyTag id := by
    cases e with
    | false => rfl
    | true => simp only [labelChars, if_pos rfl]; exact stripEmptyTag_tag_append id
  constructor
  · intro h
    rw [hlabel, stripEmptyTag_of_not_contains id h]
  · intro h
    rw [hlabel]
    intro heq
    have := stripEmptyTag_length_lt id h
    rw [heq] at this
    omega

/-- Witness for C10 at a concrete tagged label. -/
theorem label_strip_roundtrip_witness :
    stripEmptyTag (labelChars true ['D', '1']) = ['D', '1'] :=
  (label_strip_roundtrip ['D', '1'] true).1 (by decide)

/-! ## process_comtrade as a fallible operation (app.py lines 16–56) -/

/-- The classifier metadata row appended per status channel
(`digital_meta.append({"id": sid, "label": ..., "empty": is_empty})`). -/
structure DigitalMeta where
  id : List Char
  label : List Char
  empty : Bool

/-- The tuple returned by `process_comtrade` (the parts the claims need):
scaled analog series, digital metadata, and the sample period. -/
structure ProcOut where
  primaries : List (List ℚ)
  secondaries : List (List ℚ)
  metas : List DigitalMeta
  period : ℚ

/-- The digital classifier loop: `data[0]` raises on an empty channel
(`none`); otherwise each channel contributes its metadata row. -/
def classifyAll : List StatusChannel → Option (List DigitalMeta)
  | [] => some []
  | ch :: rest =>
    match ch.samples with
    | [] => none
    | _ :: _ =>
      (classifyAll rest).map fun ms =>
        ⟨ch.id, labelChars (isEmptyFlag ch.samples) ch.id,
          isEmptyFlag ch.samples⟩ :: ms

/-- `rec.time[1] - rec.time[0]`: raises (here `none`) unless the record
has at least two sample times. -/
def samplePeriod : List ℚ → Option ℚ
  | t0 :: t1 :: _ => some (t1 - t0)
  | _ => none

/-- `process_comtrade`: classify the status channels, compute the sample
period, and return the scaled series with the metadata; `none` models an
uncaught IndexError on either fallible access. -/
def processComtrade (rec : Record) : Option ProcOut :=
  match classifyAll rec.status, samplePeriod rec.time with
  | some ms, some T =>
      some ⟨rec.analog.map primarySeries, rec.analog.map secondarySeries, ms, T⟩
  | _, _ => none

/-- `classifyAll` succeeds exactly when no status channel is empty. -/
lemma classifyAll_isSome (chs : List StatusChannel)
    (h : ∀ ch ∈ chs, ch.samples ≠ []) : (classifyAll chs).isSome := by
  induction chs with
  | nil => rfl
  | cons ch rest ih =>
      have hch : ch.samples ≠ [] := h ch (by simp)
      obtain ⟨x, xs, hx⟩ : ∃ x xs, ch.samples = x :: xs := by
        cases hs : ch.samples with
        | nil => exact absurd hs hch
        | cons x xs => exact ⟨x, xs, rfl⟩
      have hrest := ih fun c hc => h c (by simp [hc])
      rw [classifyAll, hx]
      rcases Option.isSome_iff_exists.mp hrest with ⟨ms, hms⟩
      rw [hms]
      rfl

/-- `samplePeriod` succeeds exactly on records with at least two sample
times. -/
lemma samplePeriod_isSome (time : List ℚ) :
    (samplePeriod time).isSome ↔ 2 ≤ time.length := by
  match time with
  | [] => simp [samplePeriod]
  | [t0] => simp [samplePeriod]
  | t0 :: t1 :: rest =>
      simp only [samplePeriod, Option.isSome_some, List.length_cons, true_iff]
      omega

/-- The period returned is the difference of the first two sample times. -/
lemma samplePeriod_eq (time : List ℚ) (T : ℚ)
    (h : samplePeriod time = some T) :
    T = time.getD 1 0 - time.getD 0 0 := by
  match time with
  | [] => simp [samplePeriod] at h
  | [t0] => simp [samplePeriod] at h
  | t0 :: t1 :: rest =>
      simp only [samplePeriod, Option.some_inj] at h
      simp [← h]

/-- Claim C9: under the record invariant (every status channel has as many
samples as there are sample times), `process_comtrade` returns a result
exactly when there are at least two sample times — and then its sample
period is the difference of the first two sample times; with fewer than
two sample times the indexing fails (`none`, an IndexError in the code). -/
theorem process_requires_two_samples (rec : Record)
    (hinv : ∀ ch ∈ rec.status, ch.samples.length = rec.time.length) :
    ((processComtrade rec).isSome ↔ 2 ≤ rec.time.length) ∧
    (∀ out, processComtrade rec = some out →
      out.period = rec.time.getD 1 0 - rec.time.getD 0 0) := by
  constructor
  · constructor
    · intro hs
      rcases hsp : samplePeriod rec.time with _ | T
      · exfalso
        rw [processComtrade, hsp] at hs
        rcases hcl : classifyAll rec.status with _ | ms <;>
          rw [hcl] at hs <;> simp at hs
      · exact (samplePeriod_isSome rec.time).mp (by rw [hsp]; rfl)
    · intro h2
      have hne : ∀ ch ∈ rec.status, ch.samples ≠ [] := by
        intro ch hch hnil
        have hl := hinv ch hch
        rw [hnil] at hl
        simp at hl
        omega
      rcases Option.isSome_iff_exists.mp (classifyAll_isSome rec.status hne)
        with ⟨ms, hms⟩
      rcases Option.isSome_iff_exists.mp
        ((samplePeriod_isSome rec.time).mpr h2) with ⟨T, hT⟩
      rw [processComtrade, hms, hT]
      rfl
  · intro out hout
    rcases hcl : classifyAll rec.status with _ | ms
    · exfalso
      rw [processComtrade, hcl] at hout
      rcases hsp : samplePeriod rec.time with _ | T <;>
        rw [hsp] at hout <;> simp at hout
    · rcases hsp : samplePeriod rec.time with _ | T
      · exfalso
        rw [processComtrade, hcl, hsp] at hout
        simp at hout
      · rw [processComtrade, hcl, hsp, Option.some_inj] at hout
        rw [← hout]
        exact samplePeriod_eq rec.time T hsp

/-- Witness for C9: a concrete record with two sample times and one
status channel succeeds and reports period 1/10. -/
theorem process_requires_two_samples_witness :
    (processComtrade ⟨0, [0, 1/10], [], [⟨['d'], [0, 1]⟩]⟩).isSome :=
  (process_requires_two_samples ⟨0, [0, 1/10], [], [⟨['d'], [0, 1]⟩]⟩
    (by intro ch hch; simp at hch; rw [hch]; rfl)).1.mpr (by decide)

/-! ## Digital event extractor (app.py lines 142–150) -/

/-- `diff = s.diff().fillna(0)`: the first difference of the series, with
the leading NaN replaced by 0 (so a series of length n yields n values). -/
def diffSeries : List ℤ → List ℤ
  | [] => []
  | x :: xs => 0 :: List.zipWith (fun a b => a - b) xs (x :: xs)

/-- `up = s.index[diff == 1]`: timestamps at the rising edges. -/
def upTimes (times : List ℚ) (xs : List ℤ) : List ℚ :=
  ((times.zip (diffSeries xs)).filter fun p => decide (p.2 = 1)).map Prod.fst

/-- `down = s.index[diff == -1]`: timestamps at the falling edges. -/
def downTimes (times : List ℚ) (xs : List ℤ) : List ℚ :=
  ((times.zip (diffSeries xs)).filter fun p => decide (p.2 = -1)).map Prod.fst

/-- `if s.iloc[0] == 1: up = up.insert(0, s.index[0])`: synthesize a start
at the first timestamp when the series opens high. -/
def startEdges (times : List ℚ) (xs : List ℤ) : List ℚ :=
  if xs.headI = 1 then times.headI :: upTimes times xs else upTimes times xs

/-- `if s.iloc[-1] == 1: down = down.append(...)`: synthesize an end at
the last timestamp when the series closes high. -/
def endEdges (times : List ℚ) (xs : List ℤ) : List ℚ :=
  if xs.getLastD 0 = 1 then downTimes times xs ++ [times.getLastD 0]
  else downTimes times xs

/-- `for start, end in zip(up, down)`: the k-th start pairs with the k-th
end. -/
def events (times : List ℚ) (xs : List ℤ) : List (ℚ × ℚ) :=
  (startEdges times xs).zip (endEdges times xs)

/-- Counting a predicate on the second components of a zip counts it on
the second list, when the zip does not truncate it. -/
lemma countP_zip_snd (pred : ℤ → Bool) (ds : List ℤ) :
    ∀ ts : List ℚ, ds.length ≤ ts.length →
      (ts.zip ds).countP (fun p => pred p.2) = ds.countP pred := by
  induction ds with
  | nil => intro ts h; simp
  | cons d rest ih =>
      intro ts h
      cases ts with
      | nil => simp at h
      | cons t ts2 =>
          simp only [List.zip_cons_cons, List.countP_cons]
          rw [ih ts2 (by simpa using h)]

/-- Telescoping balance of rising and falling edges of a {0,1} series:
rises plus an initial high equal falls plus a final high. -/
lemma edge_balance (x : ℤ) (xs : List ℤ)
    (h01 : ∀ v ∈ x :: xs, v = 0 ∨ v = 1) :
    ((List.zipWith (fun a b => a - b) xs (x :: xs)).countP
        fun d => decide (d = 1)) + (if x = 1 then 1 else 0) =
    ((List.zipWith (fun a b => a - b) xs (x :: xs)).countP
        fun d => decide (d = -1)) +
      (if (x :: xs).getLastD 0 = 1 then 1 else 0) := by
  induction xs generalizing x with
  | nil => simp [List.getLastD_cons]
  | cons y t ih =>
      have h01' : ∀ v ∈ y :: t, v = 0 ∨ v = 1 := fun v hv =>
        h01 v (List.mem_cons_of_mem x hv)
      have hx : x = 0 ∨ x = 1 := h01 x (List.mem_cons_self x _)
      have hy : y = 0 ∨ y = 1 := h01 y (by simp)
      have hIH := ih y h01'
      simp only [List.zipWith_cons_cons, List.countP_cons,
        List.getLastD_cons] at hIH ⊢
      rcases hx with rfl | rfl <;> rcases hy with rfl | rfl <;>
        · norm_num at hIH ⊢
          omega

/-- Pointwise difference of a constant-1 series with its own shift is
constant 0. -/
lemma zipWith_sub_replicate (m : ℕ) :
    List.zipWith (fun a b => a - b) (List.replicate m (1 : ℤ))
      (List.replicate (m + 1) 1) = List.replicate m 0 := by
  induction m with
  | zero => rfl
  | succ k ih =>
      have h1 := List.replicate_succ (1 : ℤ) k
      have h2 := List.replicate_succ (1 : ℤ) (k + 1)
      rw [h2, h1, List.zipWith_cons_cons, ← h1, ih]
      norm_num [List.replicate_succ]

/-- The last entry of a non-empty constant-1 series is 1, for any
default. -/
lemma getLastD_replicate_one (n : ℕ) :
    ∀ d : ℤ, (List.replicate (n + 1) (1 : ℤ)).getLastD d = 1 := by
  induction n with
  | zero => intro d; simp
  | succ k ih =>
      intro d
      rw [List.replicate_succ, List.getLastD_cons]
      exact ih 1

/-- Claim C8: for every non-empty {0,1} digital series the synthesized
start and end lists have equal length (so the zip pairs every start with
an end); the spec example `[1,1,0,0,1,1]` over timestamps 0..5 yields
exactly the intervals (0, 2) and (4, 5); and a constant-1 series yields
exactly one interval spanning the whole series. -/
theorem event_extractor_correct :
    (∀ (times : List ℚ) (xs : List ℤ), xs ≠ [] →
      times.length = xs.length → (∀ v ∈ xs, v = 0 ∨ v = 1) →
      (startEdges times xs).length = (endEdges times xs).length) ∧
    events [0, 1, 2, 3, 4, 5] [1, 1, 0, 0, 1, 1] = [(0, 2), (4, 5)] ∧
    (∀ (times : List ℚ) (n : ℕ), times.length = n + 1 →
      events times (List.replicate (n + 1) 1) =
        [(times.headI, times.getLastD 0)]) := by
  refine ⟨?_, by decide, ?_⟩
  · intro times xs hne hlen h01
    obtain ⟨x, rest, rfl⟩ : ∃ x rest, xs = x :: rest := by
      cases xs with
      | nil => exact absurd rfl hne
      | cons x rest => exact ⟨x, rest, rfl⟩
    have hdlen : (diffSeries (x :: rest)).length ≤ times.length := by
      simp only [diffSeries, List.length_cons, List.length_zipWith, hlen]
      omega
    have hup : (upTimes times (x :: rest)).length =
        (diffSeries (x :: rest)).countP fun d => decide (d = 1) := by
      rw [upTimes, List.length_map, ← List.countP_eq_length_filter]
      exact countP_zip_snd (fun d => decide (d = 1)) _ times hdlen
    have hdown : (downTimes times (x :: rest)).length =
        (diffSeries (x :: rest)).countP fun d => decide (d = -1) := by
      rw [downTimes, List.length_map, ← List.countP_eq_length_filter]
      exact countP_zip_snd (fun d => decide (d = -1)) _ times hdlen
    have hbal := edge_balance x rest h01
    have hcount1 : (diffSeries (x :: rest)).countP (fun d => decide (d = 1)) =
        (List.zipWith (fun a b => a - b) rest (x :: rest)).countP
          fun d => decide (d = 1) := by
      simp [diffSeries, List.countP_cons]
    have hcount2 : (diffSeries (x :: rest)).countP (fun d => decide (d = -1)) =
        (List.zipWith (fun a b => a - b) rest (x :: rest)).countP
          fun d => decide (d = -1) := by
      simp [diffSeries, List.countP_cons]
    rw [startEdges, endEdges]
    simp only [List.headI_cons]
    by_cases hx1 : x = 1 <;> by_cases hl1 : (x :: rest).getLastD 0 = 1
    · rw [if_pos hx1, if_pos hl1]
      rw [if_pos hx1, if_pos hl1] at hbal
      simp only [List.length_cons, List.length_append, List.length_singleton,
        List.length_nil]
      rw [hup, hdown, hcount1, hcount2]
      omega
    · rw [if_pos hx1, if_neg hl1]
      rw [if_pos hx1, if_neg hl1] at hbal
      simp only [List.length_cons]
      rw [hup, hdown, hcount1, hcount2]
      omega
    · rw [if_neg hx1, if_pos hl1]
      rw [if_neg hx1, if_pos hl1] at hbal
      simp only [List.length_cons, List.length_append, List.length_singleton,
        List.length_nil]
      rw [hup, hdown, hcount1, hcount2]
      omega
    · rw [if_neg hx1, if_neg hl1]
      rw [if_neg hx1, if_neg hl1] at hbal
      rw [hup, hdown, hcount1, hcount2]
      omega
  · intro times n hlen
    have hrep : List.replicate (n + 1) (1 : ℤ) = 1 :: List.replicate n 1 :=
      List.replicate_succ 1 n
    have hdiff : diffSeries (List.replicate (n + 1) 1) =
        0 :: List.replicate n 0 := by
      rw [hrep, diffSeries, ← hrep, zipWith_sub_replicate]
    have hall0 : ∀ d ∈ diffSeries (List.replicate (n + 1) 1), d = 0 := by
      intro d hd
      rw [hdiff] at hd
      rcases List.mem_cons.mp hd with rfl | hd2
      · rfl
      · exact List.eq_of_mem_replicate hd2
    have hupnil : upTimes times (List.replicate (n + 1) 1) = [] := by
      rw [upTimes]
      have : (times.zip (diffSeries (List.replicate (n + 1) 1))).filter
          (fun p => decide (p.2 = 1)) = [] := by
        rw [List.filter_eq_nil_iff]
        intro p hp
        have := hall0 p.2 (List.of_mem_zip hp).2
        simp [this]
      rw [this]
      rfl
    have hdownnil : downTimes times (List.replicate (n + 1) 1) = [] := by
      rw [downTimes]
      have : (times.zip (diffSeries (List.replicate (n + 1) 1))).filter
          (fun p => decide (p.2 = -1)) = [] := by
        rw [List.filter_eq_nil_iff]
        intro p hp
        have := hall0 p.2 (List.of_mem_zip hp).2
        simp [this]
      rw [this]
      rfl
    have hhead : (List.replicate (n + 1) (1 : ℤ)).headI = 1 := by
      rw [hrep]
      rfl
    rw [events, startEdges, endEdges, hupnil, hdownnil, hhead,
      getLastD_replicate_one n 0]
    simp

/-- Witness for C8 at a concrete two-interval series. -/
theorem event_extractor_correct_witness :
    (startEdges [0, 1, 2, 3, 4, 5] [1, 1, 0, 0, 1, 1]).length =
      (endEdges [0, 1, 2, 3, 4, 5] [1, 1, 0, 0, 1, 1]).length :=
  event_extractor_correct.1 [0, 1, 2, 3, 4, 5] [1, 1, 0, 0, 1, 1]
    (by decide) (by decide) (by decide)

end ComtradeViewer
